import Mathlib

/-!
Verification of the in-memory restaurant order store
(`src/order_service.rs`, `InMemoryOrderService`).

The two `HashMap`s guarded by `RwLock`s are embedded as association
lists with unique keys (unique by construction from the empty store,
mirroring `HashMap` key uniqueness).  The fallible `RwLock::write()`
acquisitions are embedded as explicit boolean parameters (`p1`, `p2`):
`true` means that acquisition returns `Err` (a poisoned lock), exactly
the `map_err(... MutexPoisoned ...)` branches of the source.  The
random draw `rand::thread_rng().gen_range(5..16)` is an external
collaborator; it is embedded by passing the raw draw `rnd : Nat` into
`put_order` and reducing it into the half-open range `[5, 16)` as
`5 + rnd % 11`, which realizes exactly the range contract of
`gen_range(5..16)`.
-/

/-- The client-supplied order input (`struct Order` in the source:
`item_id`, `table_id`). -/
structure Order where
  item_id : String
  table_id : String
  deriving DecidableEq, Repr

/-- The canonical stored record (`struct OrderResult` in the source:
`order_id`, `item_id`, `table_id`, `cooking_time: i32`). -/
structure OrderResult where
  order_id : String
  item_id : String
  table_id : String
  cooking_time : Int
  deriving DecidableEq, Repr

/-- `enum OrderServiceError` of the source. -/
inductive OrderServiceError where
  | DuplicateOrder : String → OrderServiceError
  | OrderNotFound : String → OrderServiceError
  | MutexPoisoned : String → OrderServiceError
  deriving DecidableEq, Repr

/-- Association-list lookup, embedding `HashMap::get` /
`HashMap::get_mut`. -/
def getVal (m : List (String × α)) (k : String) : Option α :=
  match m with
  | [] => none
  | (k2, v) :: rest => if k2 = k then some v else getVal rest k

/-- Embeds `HashMap::contains_key`. -/
def containsKey (m : List (String × α)) (k : String) : Bool :=
  match m with
  | [] => false
  | (k2, _) :: rest => k2 = k || containsKey rest k

/-- Embeds `HashMap::insert` (replace the binding if the key is
present, otherwise add a new binding). -/
def insertVal (m : List (String × α)) (k : String) (v : α) : List (String × α) :=
  match m with
  | [] => [(k, v)]
  | (k2, v2) :: rest =>
    if k2 = k then (k, v) :: rest else (k2, v2) :: insertVal rest k v

/-- Embeds `HashMap::remove` (dropping the binding; the source also
uses the returned value, which the caller recovers via `getVal`). -/
def removeKey (m : List (String × α)) (k : String) : List (String × α) :=
  m.filter (fun p => p.1 ≠ k)

/-- Embeds `tables_idx.entry(t).or_insert_with(Vec::new).push(id)`:
append `id` to the collection bound to `k`, creating the binding as
`[id]` when absent. -/
def pushAtKey (m : List (String × List String)) (k : String) (id : String) :
    List (String × List String) :=
  match m with
  | [] => [(k, [id])]
  | (k2, l) :: rest =>
    if k2 = k then (k2, l ++ [id]) :: rest else (k2, l) :: pushAtKey rest k id

/-- Embeds `if let Some(table) = tables_idx.get_mut(&t) {
table.retain(|x| x != &id); }`: remove every occurrence of `id` from
the collection bound to `k`, doing nothing when the binding is
absent. -/
def retainAtKey (m : List (String × List String)) (k : String) (id : String) :
    List (String × List String) :=
  match m with
  | [] => []
  | (k2, l) :: rest =>
    if k2 = k then (k2, l.filter (fun x => x ≠ id)) :: rest
    else (k2, l) :: retainAtKey rest k id

/-- The state of `InMemoryOrderService`: `orders` embeds the
`by_id` map (`orders: RwLock<HashMap<String, OrderResult>>`) and
`tablesIdx` embeds the `by_table` map
(`tables_idx: RwLock<HashMap<String, Vec<String>>>`). -/
structure Store where
  orders : List (String × OrderResult)
  tablesIdx : List (String × List String)
  deriving DecidableEq, Repr

/-- `new_in_memory()`: both maps empty. -/
def emptyStore : Store := ⟨[], []⟩

/-- Embeds `put_order`.  `p1` (resp. `p2`) is `true` iff the `write()`
acquisition of the `orders` (resp. `tables_idx`) lock returns `Err`.
`rnd` is the raw random draw; `5 + rnd % 11` embeds
`gen_range(5..16)`.  Returns the `Result` together with the store
state left behind by the call. -/
def put_orderP (p1 p2 : Bool) (s : Store) (id : String) (order : Order)
    (rnd : Nat) : Except OrderServiceError OrderResult × Store :=
  if p1 then (.error (.MutexPoisoned "Failed to obtain write mutex"), s)
  else if containsKey s.orders id then (.error (.DuplicateOrder id), s)
  else
    let order_result : OrderResult :=
      { order_id := id, item_id := order.item_id, table_id := order.table_id,
        cooking_time := 5 + (rnd % 11 : Nat) }
    let orders1 := insertVal s.orders id order_result
    if p2 then (.error (.MutexPoisoned "Failed to obtain write mutex"),
                { s with orders := orders1 })
    else (.ok order_result,
          { orders := orders1,
            tablesIdx := pushAtKey s.tablesIdx order.table_id id })

/-- `put_order` in an execution where neither lock is poisoned (the
only possible sequential execution, since no holder of either lock
can panic). -/
def put_order (s : Store) (id : String) (order : Order) (rnd : Nat) :
    Except OrderServiceError OrderResult × Store :=
  put_orderP false false s id order rnd

/-- Embeds `delete_order`, with the lock-poisoning flags as in
`put_orderP`.  `orders.remove(&order_id)` is embedded as a `getVal`
(the returned value) together with `removeKey` (the state change). -/
def delete_orderP (p1 p2 : Bool) (s : Store) (order_id : String) :
    Except OrderServiceError OrderResult × Store :=
  if p1 then (.error (.MutexPoisoned "Failed to obtain write mutex"), s)
  else
    match getVal s.orders order_id with
    | none => (.error (.OrderNotFound order_id), s)
    | some order =>
      let orders1 := removeKey s.orders order_id
      if p2 then (.error (.MutexPoisoned "Failed to obtain write mutex"),
                  { s with orders := orders1 })
      else (.ok order,
            { orders := orders1,
              tablesIdx := retainAtKey s.tablesIdx order.table_id order_id })

/-- `delete_order` in an execution where neither lock is poisoned. -/
def delete_order (s : Store) (order_id : String) :
    Except OrderServiceError OrderResult × Store :=
  delete_orderP false false s order_id

/-- Embeds `get_orders` (the read-only query; the poisoned-read-lock
branches return an error without touching state, so the state
component is omitted).  The four cases mirror the source `match` on
`(table_id, item_id)`. -/
def get_orders (s : Store) (table_id : Option String) (item_id : Option String) :
    List OrderResult :=
  match table_id, item_id with
  | none, none => s.orders.map Prod.snd
  | some t, none =>
    match getVal s.tablesIdx t with
    | some order_ids => order_ids.filterMap (fun id => getVal s.orders id)
    | none => []
  | some t, some i =>
    match getVal s.tablesIdx t with
    | some order_ids =>
      order_ids.filterMap
        (fun id => (getVal s.orders id).filter (fun o => o.item_id = i))
    | none => []
  | none, some i =>
    (s.orders.map Prod.snd).filter (fun o => o.item_id = i)

/-- A put or delete request, as issued by the adapter; the `Nat` of a
put is the raw random draw consumed by that call. -/
inductive Op where
  | put : String → Order → Nat → Op
  | del : String → Op

/-- The store state left behind by one operation (sequential
execution, locks healthy). -/
def applyOp (s : Store) (op : Op) : Store :=
  match op with
  | .put id o rnd => (put_order s id o rnd).2
  | .del id => (delete_order s id).2

/-- The store state reached by a sequence of operations starting from
the empty store. -/
def run (ops : List Op) : Store := ops.foldl applyOp emptyStore

/-! ### Association-list lemmas -/

theorem containsKey_eq_false_iff (m : List (String × α)) (k : String) :
    containsKey m k = false ↔ getVal m k = none := by
  induction m with
  | nil => simp [containsKey, getVal]
  | cons p rest ih =>
    obtain ⟨k2, v⟩ := p
    by_cases h : k2 = k <;> simp [containsKey, getVal, h, ih]

theorem getVal_mem {m : List (String × α)} {k : String} {v : α}
    (h : getVal m k = some v) : (k, v) ∈ m := by
  induction m with
  | nil => simp [getVal] at h
  | cons p rest ih =>
    obtain ⟨k2, v2⟩ := p
    by_cases hk : k2 = k
    · simp [getVal, hk] at h
      subst hk h
      exact List.mem_cons_self _ _
    · simp [getVal, hk] at h
      exact List.mem_cons_of_mem _ (ih h)

theorem mem_getVal {m : List (String × α)} {k : String} {v : α}
    (hd : (m.map Prod.fst).Nodup) (h : (k, v) ∈ m) : getVal m k = some v := by
  induction m with
  | nil => simp at h
  | cons p rest ih =>
    obtain ⟨k2, v2⟩ := p
    simp only [List.map_cons, List.nodup_cons] at hd
    rcases List.mem_cons.mp h with h1 | h1
    · cases h1
      simp [getVal]
    · have hk : k2 ≠ k := by
        intro he
        subst he
        exact hd.1 (List.mem_map.mpr ⟨(k2, v), h1, rfl⟩)
      simp [getVal, hk]
      exact ih hd.2 h1

theorem getVal_append_single (m : List (String × α)) (id : String) (w : α)
    (k : String) :
    getVal (m ++ [(id, w)]) k =
      match getVal m k with
      | some v => some v
      | none => if id = k then some w else none := by
  induction m with
  | nil => simp [getVal]
  | cons p rest ih =>
    obtain ⟨k2, v2⟩ := p
    by_cases h : k2 = k <;> simp [getVal, h, ih]

theorem insertVal_of_fresh (m : List (String × α)) (k : String) (v : α)
    (h : containsKey m k = false) : insertVal m k v = m ++ [(k, v)] := by
  induction m with
  | nil => simp [insertVal]
  | cons p rest ih =>
    obtain ⟨k2, v2⟩ := p
    simp [containsKey] at h
    simp [insertVal, h.1, ih h.2]

theorem getVal_removeKey (m : List (String × α)) (k k2 : String) :
    getVal (removeKey m k) k2 = if k2 = k then none else getVal m k2 := by
  induction m with
  | nil => simp [removeKey, getVal]
  | cons p rest ih =>
    obtain ⟨k3, v⟩ := p
    by_cases h3 : k3 = k
    · subst h3
      have hr : removeKey ((k3, v) :: rest) k3 = removeKey rest k3 := by
        simp [removeKey]
      rw [hr, ih]
      by_cases h2 : k2 = k3
      · simp [h2]
      · have hne : ¬k3 = k2 := fun he => h2 he.symm
        simp [getVal, h2, hne]
    · have hr : removeKey ((k3, v) :: rest) k = (k3, v) :: removeKey rest k := by
        simp [removeKey, h3]
      rw [hr]
      by_cases h32 : k3 = k2
      · subst h32
        simp [getVal, fun he : k3 = k => h3 he]
      · simp [getVal, h32, ih]

theorem keys_removeKey_sublist (m : List (String × α)) (k : String) :
    ((removeKey m k).map Prod.fst).Sublist (m.map Prod.fst) :=
  (List.filter_sublist m).map Prod.fst

theorem getVal_pushAtKey_self (m : List (String × List String))
    (k id : String) :
    getVal (pushAtKey m k id) k = some ((getVal m k).getD [] ++ [id]) := by
  induction m with
  | nil => simp [pushAtKey, getVal]
  | cons p rest ih =>
    obtain ⟨k2, l⟩ := p
    by_cases h : k2 = k <;> simp [pushAtKey, getVal, h, ih]

theorem getVal_pushAtKey_ne (m : List (String × List String))
    (k id k2 : String) (h : k2 ≠ k) :
    getVal (pushAtKey m k id) k2 = getVal m k2 := by
  induction m with
  | nil =>
    have hne : ¬k = k2 := fun he => h he.symm
    simp [pushAtKey, getVal, hne]
  | cons p rest ih =>
    obtain ⟨k3, l⟩ := p
    by_cases h3 : k3 = k
    · subst h3
      have hne : ¬k3 = k2 := fun he => h he.symm
      simp [pushAtKey, getVal, hne]
    · simp [pushAtKey, getVal, h3, ih]

theorem keys_pushAtKey (m : List (String × List String)) (k id : String) :
    (pushAtKey m k id).map Prod.fst =
      if containsKey m k then m.map Prod.fst else m.map Prod.fst ++ [k] := by
  induction m with
  | nil => simp [pushAtKey, containsKey]
  | cons p rest ih =>
    obtain ⟨k2, l⟩ := p
    by_cases h : k2 = k
    · simp [pushAtKey, containsKey, h, ih]
    · by_cases hc : containsKey rest k = true <;>
        simp [pushAtKey, containsKey, h, ih, hc]

theorem getVal_retainAtKey_self (m : List (String × List String))
    (k id : String) :
    getVal (retainAtKey m k id) k =
      (getVal m k).map (fun l => l.filter (fun x => x ≠ id)) := by
  induction m with
  | nil => simp [retainAtKey, getVal]
  | cons p rest ih =>
    obtain ⟨k2, l⟩ := p
    by_cases h : k2 = k <;> simp [retainAtKey, getVal, h, ih]

theorem getVal_retainAtKey_ne (m : List (String × List String))
    (k id k2 : String) (h : k2 ≠ k) :
    getVal (retainAtKey m k id) k2 = getVal m k2 := by
  induction m with
  | nil => simp [retainAtKey, getVal]
  | cons p rest ih =>
    obtain ⟨k3, l⟩ := p
    by_cases h3 : k3 = k
    · subst h3
      have hne : ¬k3 = k2 := fun he => h he.symm
      simp [retainAtKey, getVal, hne]
    · simp [retainAtKey, getVal, h3, ih]

theorem keys_retainAtKey (m : List (String × List String)) (k id : String) :
    (retainAtKey m k id).map Prod.fst = m.map Prod.fst := by
  induction m with
  | nil => simp [retainAtKey]
  | cons p rest ih =>
    obtain ⟨k2, l⟩ := p
    by_cases h : k2 = k <;> simp [retainAtKey, h, ih]

theorem not_mem_keys_of_not_contains {m : List (String × α)} {k : String}
    (h : containsKey m k = false) : k ∉ m.map Prod.fst := by
  induction m with
  | nil => simp
  | cons p rest ih =>
    obtain ⟨k2, v⟩ := p
    simp [containsKey] at h
    simp [ih h.2]
    exact fun he => h.1 he.symm

theorem getVal_append_fresh {m : List (String × α)} {id : String} (w : α)
    (k : String) (hfresh : getVal m id = none) :
    getVal (m ++ [(id, w)]) k = if id = k then some w else getVal m k := by
  rw [getVal_append_single]
  by_cases hk : id = k
  · subst hk
    simp [hfresh]
  · cases hg : getVal m k <;> simp [hg, hk]

theorem count_filter_ne (l : List String) (k id : String) (h : k ≠ id) :
    (l.filter (fun x => x ≠ id)).count k = l.count k :=
  List.count_filter (by simpa using h)

/-- The reachable-state invariant of the store: unique keys in both
maps (as in a `HashMap`), each stored record keyed by its own
`order_id`, cooking times in `[5, 15]`, index completeness
(invariant 2 of the specification) and index soundness
(invariant 3). -/
structure StoreInv (s : Store) : Prop where
  okeys : (s.orders.map Prod.fst).Nodup
  tkeys : (s.tablesIdx.map Prod.fst).Nodup
  oid : ∀ k r, getVal s.orders k = some r → r.order_id = k
  ct : ∀ k r, getVal s.orders k = some r →
    5 ≤ r.cooking_time ∧ r.cooking_time ≤ 15
  complete : ∀ k r, getVal s.orders k = some r →
    ((getVal s.tablesIdx r.table_id).getD []).count k = 1
  sound : ∀ t id, id ∈ (getVal s.tablesIdx t).getD [] →
    ∃ r, getVal s.orders id = some r ∧ r.table_id = t

theorem StoreInv_empty : StoreInv emptyStore := by
  constructor <;> simp [emptyStore, getVal]

theorem put_order_snd_of_dup {s : Store} {id : String} {o : Order} {rnd : Nat}
    (hc : containsKey s.orders id = true) : (put_order s id o rnd).2 = s := by
  simp [put_order, put_orderP, hc]

theorem put_order_of_fresh {s : Store} {id : String} {o : Order} {rnd : Nat}
    (hc : containsKey s.orders id = false) :
    put_order s id o rnd =
      (.ok { order_id := id, item_id := o.item_id, table_id := o.table_id,
             cooking_time := 5 + (rnd % 11 : Nat) },
       { orders := s.orders ++
           [(id, { order_id := id, item_id := o.item_id,
                   table_id := o.table_id,
                   cooking_time := 5 + (rnd % 11 : Nat) })],
         tablesIdx := pushAtKey s.tablesIdx o.table_id id }) := by
  simp [put_order, put_orderP, hc, insertVal_of_fresh _ _ _ hc]

theorem StoreInv_put (s : Store) (hInv : StoreInv s) (id : String) (o : Order)
    (rnd : Nat) : StoreInv (put_order s id o rnd).2 := by
  cases hc : containsKey s.orders id
  case true => rw [put_order_snd_of_dup hc]; exact hInv
  case false =>
  have hfresh : getVal s.orders id = none :=
    (containsKey_eq_false_iff s.orders id).mp hc
  rw [put_order_of_fresh hc]
  set rec : OrderResult :=
    { order_id := id, item_id := o.item_id, table_id := o.table_id,
      cooking_time := 5 + (rnd % 11 : Nat) } with hrec
  have hmod : rnd % 11 < 11 := Nat.mod_lt _ (by norm_num)
  constructor
  · -- okeys
    simp only [List.map_append, List.map_cons, List.map_nil]
    rw [List.nodup_append]
    refine ⟨hInv.okeys, List.nodup_singleton _, ?_⟩
    intro a ha hb
    simp at hb
    subst hb
    exact not_mem_keys_of_not_contains hc ha
  · -- tkeys
    rw [keys_pushAtKey]
    cases ht : containsKey s.tablesIdx o.table_id
    · simp only [Bool.false_eq_true, if_false]
      rw [List.nodup_append]
      exact ⟨hInv.tkeys, List.nodup_singleton _, by
        intro a ha hb
        simp at hb
        subst hb
        exact not_mem_keys_of_not_contains ht ha⟩
    · simpa using hInv.tkeys
  · -- oid
    intro k r hk
    rw [getVal_append_fresh _ _ hfresh] at hk
    by_cases hik : id = k
    · simp [hik] at hk
      rw [← hk, ← hik]
    · simp [hik] at hk
      exact hInv.oid k r hk
  · -- ct
    intro k r hk
    rw [getVal_append_fresh _ _ hfresh] at hk
    by_cases hik : id = k
    · simp [hik] at hk
      rw [← hk]
      simp only [hrec]
      constructor <;> [omega; omega]
    · simp [hik] at hk
      exact hInv.ct k r hk
  · -- complete
    intro k r hk
    rw [getVal_append_fresh _ _ hfresh] at hk
    by_cases hik : id = k
    · simp [hik] at hk
      subst hik
      rw [← hk]
      simp only [hrec]
      rw [getVal_pushAtKey_self]
      simp only [Option.getD_some]
      rw [List.count_append]
      have hz : ((getVal s.tablesIdx o.table_id).getD []).count id = 0 := by
        rw [List.count_eq_zero]
        intro hmem
        obtain ⟨r2, hr2, _⟩ := hInv.sound o.table_id id hmem
        rw [hfresh] at hr2
        exact Option.noConfusion hr2
      rw [hz]
      simp
    · simp [hik] at hk
      have h1 := hInv.complete k r hk
      by_cases htt : r.table_id = o.table_id
      · rw [htt] at h1 ⊢
        rw [getVal_pushAtKey_self]
        simp only [Option.getD_some]
        rw [List.count_append, h1]
        have : List.count k [id] = 0 := by
          rw [List.count_singleton']
          simp [hik]
        rw [this]
      · rw [getVal_pushAtKey_ne _ _ _ _ htt]
        exact h1
  · -- sound
    intro t id2 hmem
    by_cases htt : t = o.table_id
    · subst htt
      rw [getVal_pushAtKey_self] at hmem
      simp only [Option.getD_some] at hmem
      rcases List.mem_append.mp hmem with hm | hm
      · obtain ⟨r2, hr2, hrt2⟩ := hInv.sound o.table_id id2 hm
        have hne : id ≠ id2 := by
          intro he
          rw [← he, hfresh] at hr2
          exact Option.noConfusion hr2
        refine ⟨r2, ?_, hrt2⟩
        rw [getVal_append_fresh _ _ hfresh]
        simp [hne]
        exact hr2
      · simp at hm
        subst hm
        refine ⟨rec, ?_, rfl⟩
        rw [getVal_append_fresh _ _ hfresh]
        simp
    · rw [getVal_pushAtKey_ne _ _ _ _ htt] at hmem
      obtain ⟨r2, hr2, hrt2⟩ := hInv.sound t id2 hmem
      have hne : id ≠ id2 := by
        intro he
        rw [← he, hfresh] at hr2
        exact Option.noConfusion hr2
      refine ⟨r2, ?_, hrt2⟩
      rw [getVal_append_fresh _ _ hfresh]
      simp [hne]
      exact hr2

theorem delete_order_snd_of_missing {s : Store} {did : String}
    (hg : getVal s.orders did = none) : (delete_order s did).2 = s := by
  simp [delete_order, delete_orderP, hg]

theorem delete_order_of_found {s : Store} {did : String} {r : OrderResult}
    (hg : getVal s.orders did = some r) :
    delete_order s did =
      (.ok r, { orders := removeKey s.orders did,
                tablesIdx := retainAtKey s.tablesIdx r.table_id did }) := by
  simp [delete_order, delete_orderP, hg]

theorem StoreInv_delete (s : Store) (hInv : StoreInv s) (did : String) :
    StoreInv (delete_order s did).2 := by
  cases hg : getVal s.orders did
  case none => rw [delete_order_snd_of_missing hg]; exact hInv
  case some r =>
  rw [delete_order_of_found hg]
  constructor
  · -- okeys
    exact hInv.okeys.sublist (keys_removeKey_sublist s.orders did)
  · -- tkeys
    rw [keys_retainAtKey]
    exact hInv.tkeys
  · -- oid
    intro k r2 hk
    rw [getVal_removeKey] at hk
    by_cases hkd : k = did
    · simp [hkd] at hk
    · simp [hkd] at hk
      exact hInv.oid k r2 hk
  · -- ct
    intro k r2 hk
    rw [getVal_removeKey] at hk
    by_cases hkd : k = did
    · simp [hkd] at hk
    · simp [hkd] at hk
      exact hInv.ct k r2 hk
  · -- complete
    intro k r2 hk
    rw [getVal_removeKey] at hk
    by_cases hkd : k = did
    · simp [hkd] at hk
    · simp only [hkd, if_false] at hk
      have h1 := hInv.complete k r2 hk
      by_cases htt : r2.table_id = r.table_id
      · rw [htt] at h1 ⊢
        rw [getVal_retainAtKey_self]
        cases hgt : getVal s.tablesIdx r.table_id with
        | none =>
          rw [hgt] at h1
          simp at h1
        | some l =>
          rw [hgt] at h1
          simp only [Option.map_some', Option.getD_some] at h1 ⊢
          rw [count_filter_ne _ _ _ hkd]
          exact h1
      · rw [getVal_retainAtKey_ne _ _ _ _ htt]
        exact h1
  · -- sound
    intro t id2 hmem
    by_cases htt : t = r.table_id
    · subst htt
      rw [getVal_retainAtKey_self] at hmem
      cases hgt : getVal s.tablesIdx r.table_id with
      | none =>
        rw [hgt] at hmem
        simp at hmem
      | some l =>
        rw [hgt] at hmem
        simp only [Option.map_some', Option.getD_some, List.mem_filter] at hmem
        obtain ⟨hml, hne⟩ := hmem
        have hne2 : id2 ≠ did := by simpa using hne
        obtain ⟨r2, hr2, hrt2⟩ := hInv.sound r.table_id id2 (by
          rw [hgt]; simpa using hml)
        refine ⟨r2, ?_, hrt2⟩
        rw [getVal_removeKey]
        simp [hne2]
        exact hr2
    · rw [getVal_retainAtKey_ne _ _ _ _ htt] at hmem
      obtain ⟨r2, hr2, hrt2⟩ := hInv.sound t id2 hmem
      have hne2 : id2 ≠ did := by
        intro he
        rw [he, hg] at hr2
        have : r = r2 := by injection hr2
        rw [← this] at hrt2
        exact htt hrt2.symm
      refine ⟨r2, ?_, hrt2⟩
      rw [getVal_removeKey]
      simp [hne2]
      exact hr2

theorem StoreInv_applyOp (s : Store) (hInv : StoreInv s) (op : Op) :
    StoreInv (applyOp s op) := by
  cases op with
  | put id o rnd => exact StoreInv_put s hInv id o rnd
  | del id => exact StoreInv_delete s hInv id

theorem StoreInv_foldl (ops : List Op) :
    ∀ s : Store, StoreInv s → StoreInv (ops.foldl applyOp s) := by
  induction ops with
  | nil => intro s h; exact h
  | cons op rest ih =>
    intro s h
    exact ih (applyOp s op) (StoreInv_applyOp s h op)

/-- Every store state reachable by a sequence of operations from the
empty store satisfies the invariant. -/
theorem StoreInv_run (ops : List Op) : StoreInv (run ops) :=
  StoreInv_foldl ops emptyStore StoreInv_empty

/-- C1: for every sequence of put and delete operations starting from
the empty store, after each operation completes: no two live orders
share `order_id`; every live order's `order_id` appears in the
`by_table` entry for its `table_id` exactly once; and every id listed
under any `by_table` entry refers to a live order in `by_id` whose
`table_id` equals that entry's key. -/
theorem store_invariants_hold (ops : List Op) :
    (((run ops).orders.map (fun p => p.2.order_id)).Nodup)
    ∧ (∀ p ∈ (run ops).orders,
        ((getVal (run ops).tablesIdx p.2.table_id).getD []).count
          p.2.order_id = 1)
    ∧ (∀ q ∈ (run ops).tablesIdx, ∀ id ∈ q.2,
        ∃ r, getVal (run ops).orders id = some r ∧ r.table_id = q.1) := by
  have hI := StoreInv_run ops
  refine ⟨?_, ?_, ?_⟩
  · have hfun : ∀ p ∈ (run ops).orders,
        (fun p : String × OrderResult => p.2.order_id) p = Prod.fst p := by
      intro p hp
      obtain ⟨k, r⟩ := p
      exact hI.oid k r (mem_getVal hI.okeys hp)
    rw [List.map_congr_left hfun]
    exact hI.okeys
  · intro p hp
    obtain ⟨k, r⟩ := p
    have hg := mem_getVal hI.okeys hp
    have h1 := hI.complete k r hg
    have h2 := hI.oid k r hg
    simpa [h2] using h1
  · intro q hq id hid
    obtain ⟨t, l⟩ := q
    have hgt := mem_getVal hI.tkeys hq
    exact hI.sound t id (by rw [hgt]; simpa using hid)

theorem store_invariants_hold_witness :
    (((run [Op.put "a" ⟨"i", "t"⟩ 2, Op.put "b" ⟨"j", "t"⟩ 4,
        Op.del "a"]).orders.map (fun p => p.2.order_id)).Nodup) :=
  (store_invariants_hold
    [Op.put "a" ⟨"i", "t"⟩ 2, Op.put "b" ⟨"j", "t"⟩ 4, Op.del "a"]).1

/-- C2: for every `order_id` not currently in `by_id` and every input
(including empty `item_id`/`table_id` strings, which are not
validated), put succeeds: it returns a record whose `order_id` equals
the argument and whose `item_id` and `table_id` are copied from the
input, inserts that record into `by_id`, and appends `order_id` to
`by_table[input.table_id]`, creating the entry if absent. -/
theorem put_order_success_spec (s : Store) (id : String) (o : Order)
    (rnd : Nat) (hfresh : containsKey s.orders id = false) :
    ∃ r : OrderResult,
      (put_order s id o rnd).1 = .ok r
      ∧ r.order_id = id ∧ r.item_id = o.item_id ∧ r.table_id = o.table_id
      ∧ getVal (put_order s id o rnd).2.orders id = some r
      ∧ getVal (put_order s id o rnd).2.tablesIdx o.table_id =
          some ((getVal s.tablesIdx o.table_id).getD [] ++ [id]) := by
  rw [put_order_of_fresh hfresh]
  refine ⟨_, rfl, rfl, rfl, rfl, ?_, getVal_pushAtKey_self _ _ _⟩
  rw [getVal_append_fresh _ _ ((containsKey_eq_false_iff _ _).mp hfresh)]
  simp

theorem put_order_success_spec_witness :
    ∃ r : OrderResult,
      (put_order emptyStore "a" ⟨"", ""⟩ 7).1 = .ok r
      ∧ r.order_id = "a" ∧ r.item_id = "" ∧ r.table_id = ""
      ∧ getVal (put_order emptyStore "a" ⟨"", ""⟩ 7).2.orders "a" = some r
      ∧ getVal (put_order emptyStore "a" ⟨"", ""⟩ 7).2.tablesIdx "" =
          some ((getVal emptyStore.tablesIdx "").getD [] ++ ["a"]) :=
  put_order_success_spec emptyStore "a" ⟨"", ""⟩ 7 rfl

/-- C3: for every `order_id` currently in `by_id`, delete succeeds: it
removes the entry from `by_id`, removes `order_id` from
`by_table[order.table_id]`, and returns the removed record exactly as
stored before removal. -/
theorem delete_order_success_spec (s : Store) (did : String)
    (r : OrderResult) (hg : getVal s.orders did = some r) :
    (delete_order s did).1 = .ok r
    ∧ getVal (delete_order s did).2.orders did = none
    ∧ did ∉ (getVal (delete_order s did).2.tablesIdx r.table_id).getD [] := by
  rw [delete_order_of_found hg]
  refine ⟨rfl, ?_, ?_⟩
  · rw [getVal_removeKey]
    simp
  · rw [getVal_retainAtKey_self]
    cases getVal s.tablesIdx r.table_id <;> simp

theorem delete_order_success_spec_witness :
    (delete_order ⟨[("a", ⟨"a", "i", "t", 5⟩)], [("t", ["a"])]⟩ "a").1 =
      .ok ⟨"a", "i", "t", 5⟩
    ∧ getVal (delete_order ⟨[("a", ⟨"a", "i", "t", 5⟩)],
        [("t", ["a"])]⟩ "a").2.orders "a" = none
    ∧ "a" ∉ (getVal (delete_order ⟨[("a", ⟨"a", "i", "t", 5⟩)],
        [("t", ["a"])]⟩ "a").2.tablesIdx "t").getD [] :=
  delete_order_success_spec ⟨[("a", ⟨"a", "i", "t", 5⟩)], [("t", ["a"])]⟩
    "a" ⟨"a", "i", "t", 5⟩ (by simp [getVal])

/-- C4: put fails with `DuplicateOrder` iff `by_id` already contains
the id; delete fails with `OrderNotFound` iff `by_id` has no entry for
the id; in both failure cases the store is bitwise-equal to its
pre-call state. -/
theorem put_delete_failure_spec (s : Store) (id : String) (o : Order)
    (rnd : Nat) :
    ((put_order s id o rnd).1 = .error (.DuplicateOrder id) ↔
      containsKey s.orders id = true)
    ∧ (containsKey s.orders id = true → (put_order s id o rnd).2 = s)
    ∧ ((delete_order s id).1 = .error (.OrderNotFound id) ↔
      getVal s.orders id = none)
    ∧ (getVal s.orders id = none → (delete_order s id).2 = s) := by
  refine ⟨?_, ?_, ?_, ?_⟩
  · cases hc : containsKey s.orders id
    · rw [put_order_of_fresh hc]
      simp
    · simp [put_order, put_orderP, hc]
  · exact fun hc => put_order_snd_of_dup hc
  · cases hg : getVal s.orders id with
    | none => simp [delete_order, delete_orderP, hg]
    | some r =>
      rw [delete_order_of_found hg]
      simp [hg]
  · exact fun hg => delete_order_snd_of_missing hg

theorem put_delete_failure_spec_witness :
    ((put_order ⟨[("a", ⟨"a", "i", "t", 5⟩)], [("t", ["a"])]⟩ "a"
        ⟨"x", "y"⟩ 3).1 = .error (.DuplicateOrder "a"))
    ∧ (put_order ⟨[("a", ⟨"a", "i", "t", 5⟩)], [("t", ["a"])]⟩ "a"
        ⟨"x", "y"⟩ 3).2 = ⟨[("a", ⟨"a", "i", "t", 5⟩)], [("t", ["a"])]⟩
    ∧ ((delete_order emptyStore "ghost").1 = .error (.OrderNotFound "ghost"))
    ∧ (delete_order emptyStore "ghost").2 = emptyStore := by
  have h1 := put_delete_failure_spec
    ⟨[("a", ⟨"a", "i", "t", 5⟩)], [("t", ["a"])]⟩ "a" ⟨"x", "y"⟩ 3
  have h2 := put_delete_failure_spec emptyStore "ghost" ⟨"x", "y"⟩ 0
  exact ⟨h1.1.mpr (by simp [containsKey]), h1.2.1 (by simp [containsKey]),
         h2.2.2.1.mpr rfl, h2.2.2.2 rfl⟩

theorem mem_values_iff_getVal {s : Store} (hI : StoreInv s) (r : OrderResult) :
    r ∈ s.orders.map Prod.snd ↔ getVal s.orders r.order_id = some r := by
  constructor
  · intro hm
    obtain ⟨⟨k, r2⟩, hp, hpr⟩ := List.mem_map.mp hm
    simp only at hpr
    subst hpr
    have hg := mem_getVal hI.okeys hp
    rw [hI.oid k r2 hg]
    exact hg
  · intro hg
    exact List.mem_map.mpr ⟨(r.order_id, r), getVal_mem hg, rfl⟩

theorem mem_get_orders_table {s : Store} (hI : StoreInv s) (t : String)
    (r : OrderResult) :
    r ∈ get_orders s (some t) none ↔
      r ∈ s.orders.map Prod.snd ∧ r.table_id = t := by
  cases hgt : getVal s.tablesIdx t with
  | none =>
    simp only [get_orders, hgt, List.not_mem_nil, false_iff]
    rintro ⟨hm, hrt⟩
    have hg := (mem_values_iff_getVal hI r).mp hm
    have hc := hI.complete r.order_id r hg
    rw [hrt, hgt] at hc
    simp at hc
  | some ids =>
    simp only [get_orders, hgt, List.mem_filterMap]
    constructor
    · rintro ⟨id2, hid2, hval⟩
      obtain ⟨r2, hr2, hrt2⟩ := hI.sound t id2 (by rw [hgt]; simpa using hid2)
      rw [hval] at hr2
      injection hr2 with h2
      subst h2
      exact ⟨List.mem_map.mpr ⟨(id2, r), getVal_mem hval, rfl⟩, hrt2⟩
    · rintro ⟨hm, hrt⟩
      have hg := (mem_values_iff_getVal hI r).mp hm
      have hc := hI.complete r.order_id r hg
      rw [hrt, hgt] at hc
      simp only [Option.getD_some] at hc
      exact ⟨r.order_id, List.count_pos_iff.mp (by omega), hg⟩

theorem mem_get_orders_item (s : Store) (i : String) (r : OrderResult) :
    r ∈ get_orders s none (some i) ↔
      r ∈ s.orders.map Prod.snd ∧ r.item_id = i := by
  simp [get_orders, List.mem_filter]

theorem mem_get_orders_table_item {s : Store} (hI : StoreInv s) (t i : String)
    (r : OrderResult) :
    r ∈ get_orders s (some t) (some i) ↔
      r ∈ s.orders.map Prod.snd ∧ r.table_id = t ∧ r.item_id = i := by
  cases hgt : getVal s.tablesIdx t with
  | none =>
    simp only [get_orders, hgt, List.not_mem_nil, false_iff]
    rintro ⟨hm, hrt, _⟩
    have hg := (mem_values_iff_getVal hI r).mp hm
    have hc := hI.complete r.order_id r hg
    rw [hrt, hgt] at hc
    simp at hc
  | some ids =>
    simp only [get_orders, hgt, List.mem_filterMap]
    constructor
    · rintro ⟨id2, hid2, hval⟩
      rw [Option.filter_eq_some] at hval
      obtain ⟨hval1, hval2⟩ := hval
      rw [Option.mem_def] at hval1
      obtain ⟨r2, hr2, hrt2⟩ := hI.sound t id2 (by rw [hgt]; simpa using hid2)
      rw [hval1] at hr2
      injection hr2 with h2
      subst h2
      refine ⟨List.mem_map.mpr ⟨(id2, r), getVal_mem hval1, rfl⟩, hrt2, ?_⟩
      simpa using hval2
    · rintro ⟨hm, hrt, hri⟩
      have hg := (mem_values_iff_getVal hI r).mp hm
      have hc := hI.complete r.order_id r hg
      rw [hrt, hgt] at hc
      simp only [Option.getD_some] at hc
      refine ⟨r.order_id, List.count_pos_iff.mp (by omega), ?_⟩
      rw [Option.filter_eq_some, Option.mem_def]
      exact ⟨hg, by simp [hri]⟩

/-- C5: with no filters list returns all live orders; with only
`table_id` exactly the live orders at that table (resolved through
`by_table`); with only `item_id` exactly the live orders with that
item; with both, exactly the live orders matching both; and for any
filter value with no matching orders the result is the empty
sequence. -/
theorem get_orders_filter_spec (ops : List Op) (t i : String) :
    (get_orders (run ops) none none = (run ops).orders.map Prod.snd)
    ∧ (∀ r, r ∈ get_orders (run ops) (some t) none ↔
        r ∈ (run ops).orders.map Prod.snd ∧ r.table_id = t)
    ∧ (∀ r, r ∈ get_orders (run ops) none (some i) ↔
        r ∈ (run ops).orders.map Prod.snd ∧ r.item_id = i)
    ∧ (∀ r, r ∈ get_orders (run ops) (some t) (some i) ↔
        r ∈ (run ops).orders.map Prod.snd ∧ r.table_id = t ∧ r.item_id = i)
    ∧ ((∀ r ∈ (run ops).orders.map Prod.snd, r.table_id ≠ t) →
        get_orders (run ops) (some t) none = [])
    ∧ ((∀ r ∈ (run ops).orders.map Prod.snd, r.item_id ≠ i) →
        get_orders (run ops) none (some i) = [])
    ∧ ((∀ r ∈ (run ops).orders.map Prod.snd,
          ¬(r.table_id = t ∧ r.item_id = i)) →
        get_orders (run ops) (some t) (some i) = []) := by
  have hI := StoreInv_run ops
  refine ⟨rfl, fun r => mem_get_orders_table hI t r,
          fun r => mem_get_orders_item (run ops) i r,
          fun r => mem_get_orders_table_item hI t i r, ?_, ?_, ?_⟩
  · intro h
    rw [List.eq_nil_iff_forall_not_mem]
    intro r hr
    obtain ⟨hm, hrt⟩ := (mem_get_orders_table hI t r).mp hr
    exact h r hm hrt
  · intro h
    rw [List.eq_nil_iff_forall_not_mem]
    intro r hr
    obtain ⟨hm, hri⟩ := (mem_get_orders_item (run ops) i r).mp hr
    exact h r hm hri
  · intro h
    rw [List.eq_nil_iff_forall_not_mem]
    intro r hr
    obtain ⟨hm, hrt, hri⟩ := (mem_get_orders_table_item hI t i r).mp hr
    exact h r hm ⟨hrt, hri⟩

theorem get_orders_filter_spec_witness :
    (⟨"a", "i", "t", 5⟩ : OrderResult) ∈
        get_orders (run [Op.put "a" ⟨"i", "t"⟩ 0]) (some "t") none ↔
      (⟨"a", "i", "t", 5⟩ : OrderResult) ∈
          (run [Op.put "a" ⟨"i", "t"⟩ 0]).orders.map Prod.snd
        ∧ (⟨"a", "i", "t", 5⟩ : OrderResult).table_id = "t" :=
  (get_orders_filter_spec [Op.put "a" ⟨"i", "t"⟩ 0] "t" "i").2.1
    ⟨"a", "i", "t", 5⟩

/-- C6 counterexample: with the `orders` lock healthy and the
`tables_idx` lock poisoned, `put_order` returns the Internal
(`MutexPoisoned`) error yet leaves the store mutated (the order was
already inserted into `by_id`), so not every error path preserves the
pre-call state. -/
theorem put_internal_error_mutates :
    (put_orderP false true emptyStore "a" ⟨"i", "t"⟩ 0).1 =
      .error (.MutexPoisoned "Failed to obtain write mutex")
    ∧ (put_orderP false true emptyStore "a" ⟨"i", "t"⟩ 0).2 ≠ emptyStore :=
  ⟨rfl, by decide⟩

/-- C6 amended: on every error path `by_table` is unchanged; on the
`DuplicateOrder` and `OrderNotFound` paths and on an Internal error
from the first lock acquisition the whole store is unchanged; only an
Internal error from the second (`tables_idx`) lock acquisition can
leave `by_id` mutated. -/
theorem error_paths_state_spec (p1 p2 : Bool) (s : Store) (id : String)
    (o : Order) (rnd : Nat) :
    (∀ e, (put_orderP p1 p2 s id o rnd).1 = .error e →
      (put_orderP p1 p2 s id o rnd).2.tablesIdx = s.tablesIdx)
    ∧ (∀ e, (delete_orderP p1 p2 s id).1 = .error e →
      (delete_orderP p1 p2 s id).2.tablesIdx = s.tablesIdx)
    ∧ ((put_orderP p1 p2 s id o rnd).1 = .error (.DuplicateOrder id) →
      (put_orderP p1 p2 s id o rnd).2 = s)
    ∧ ((delete_orderP p1 p2 s id).1 = .error (.OrderNotFound id) →
      (delete_orderP p1 p2 s id).2 = s)
    ∧ (p1 = true →
      (put_orderP p1 p2 s id o rnd).2 = s
      ∧ (delete_orderP p1 p2 s id).2 = s) := by
  refine ⟨?_, ?_, ?_, ?_, ?_⟩
  · intro e h
    cases p1 with
    | true => simp [put_orderP]
    | false =>
      cases hc : containsKey s.orders id with
      | true => simp [put_orderP, hc]
      | false =>
        cases p2 with
        | true => simp [put_orderP, hc]
        | false => simp [put_orderP, hc] at h
  · intro e h
    cases p1 with
    | true => simp [delete_orderP]
    | false =>
      cases hg : getVal s.orders id with
      | none => simp [delete_orderP, hg]
      | some r =>
        cases p2 with
        | true => simp [delete_orderP, hg]
        | false => simp [delete_orderP, hg] at h
  · intro h
    cases p1 with
    | true => simp [put_orderP] at h
    | false =>
      cases hc : containsKey s.orders id with
      | true => simp [put_orderP, hc]
      | false =>
        cases p2 with
        | true => simp [put_orderP, hc] at h
        | false => simp [put_orderP, hc] at h
  · intro h
    cases p1 with
    | true => simp [delete_orderP] at h
    | false =>
      cases hg : getVal s.orders id with
      | none => simp [delete_orderP, hg]
      | some r =>
        cases p2 with
        | true => simp [delete_orderP, hg] at h
        | false => simp [delete_orderP, hg] at h
  · intro hp
    subst hp
    exact ⟨by simp [put_orderP], by simp [delete_orderP]⟩

theorem error_paths_state_spec_witness :
    (put_orderP true false emptyStore "a" ⟨"i", "t"⟩ 0).2 = emptyStore
    ∧ (delete_orderP true false emptyStore "a").2 = emptyStore :=
  (error_paths_state_spec true false emptyStore "a" ⟨"i", "t"⟩ 0).2.2.2.2 rfl

/-- C7: for every store state, after a successful
`put(id, {item, table})` returning record `r`, an immediately
following `list(table_id=table)` contains `r` and an immediately
following `list(item_id=item)` contains `r`. -/
theorem put_list_roundtrip (s : Store) (id : String) (o : Order)
    (rnd : Nat) (r : OrderResult)
    (hok : (put_order s id o rnd).1 = .ok r) :
    r ∈ get_orders (put_order s id o rnd).2 (some o.table_id) none
    ∧ r ∈ get_orders (put_order s id o rnd).2 none (some o.item_id) := by
  cases hc : containsKey s.orders id with
  | true => simp [put_order, put_orderP, hc] at hok
  | false =>
    have hfresh := (containsKey_eq_false_iff _ _).mp hc
    rw [put_order_of_fresh hc] at hok ⊢
    have h2 : Except.ok (ε := OrderServiceError)
        ({ order_id := id, item_id := o.item_id, table_id := o.table_id,
           cooking_time := 5 + (rnd % 11 : Nat) } : OrderResult) =
        Except.ok r := hok
    injection h2 with h3
    constructor
    · simp only [get_orders, getVal_pushAtKey_self]
      refine List.mem_filterMap.mpr ⟨id, by simp, ?_⟩
      rw [getVal_append_fresh _ _ hfresh, if_pos rfl, h3]
    · refine List.mem_filter.mpr ⟨?_, ?_⟩
      · exact List.mem_map.mpr ⟨(id, r), by simp [← h3], rfl⟩
      · simp [← h3]

theorem put_list_roundtrip_witness :
    (⟨"a", "i", "t", 5⟩ : OrderResult) ∈
        get_orders (put_order emptyStore "a" ⟨"i", "t"⟩ 0).2 (some "t") none
    ∧ (⟨"a", "i", "t", 5⟩ : OrderResult) ∈
        get_orders (put_order emptyStore "a" ⟨"i", "t"⟩ 0).2 none
          (some "i") :=
  put_list_roundtrip emptyStore "a" ⟨"i", "t"⟩ 0 ⟨"a", "i", "t", 5⟩ rfl

/-- C8: every order produced or returned by any store operation has
`cooking_time` in the inclusive range `[5, 15]`: the live orders of
every reachable state, the record returned by a successful put or
delete, and every record returned by a query. -/
theorem cooking_time_range (ops : List Op) :
    (∀ r ∈ (run ops).orders.map Prod.snd,
        5 ≤ r.cooking_time ∧ r.cooking_time ≤ 15)
    ∧ (∀ id o rnd r, (put_order (run ops) id o rnd).1 = .ok r →
        5 ≤ r.cooking_time ∧ r.cooking_time ≤ 15)
    ∧ (∀ id r, (delete_order (run ops) id).1 = .ok r →
        5 ≤ r.cooking_time ∧ r.cooking_time ≤ 15)
    ∧ (∀ ot oi r, r ∈ get_orders (run ops) ot oi →
        5 ≤ r.cooking_time ∧ r.cooking_time ≤ 15) := by
  have hI := StoreInv_run ops
  have hlive : ∀ r ∈ (run ops).orders.map Prod.snd,
      5 ≤ r.cooking_time ∧ r.cooking_time ≤ 15 := by
    intro r hm
    exact hI.ct r.order_id r ((mem_values_iff_getVal hI r).mp hm)
  refine ⟨hlive, ?_, ?_, ?_⟩
  · intro id o rnd r hok
    cases hc : containsKey (run ops).orders id with
    | true => simp [put_order, put_orderP, hc] at hok
    | false =>
      rw [put_order_of_fresh hc] at hok
      have h2 : Except.ok (ε := OrderServiceError)
          ({ order_id := id, item_id := o.item_id, table_id := o.table_id,
             cooking_time := 5 + (rnd % 11 : Nat) } : OrderResult) =
          Except.ok r := hok
      injection h2 with h3
      have h4 : r.cooking_time = (5 + (rnd % 11 : Nat) : Int) := by
        rw [← h3]
      have hm : rnd % 11 < 11 := Nat.mod_lt _ (by norm_num)
      rw [h4]
      omega
  · intro id r hok
    cases hg : getVal (run ops).orders id with
    | none => simp [delete_order, delete_orderP, hg] at hok
    | some r2 =>
      rw [delete_order_of_found hg] at hok
      have h2 : Except.ok (ε := OrderServiceError) r2 = Except.ok r := hok
      injection h2 with h3
      subst h3
      exact hI.ct id r2 hg
  · intro ot oi r hmem
    cases ot with
    | none =>
      cases oi with
      | none => exact hlive r hmem
      | some i =>
        rw [mem_get_orders_item] at hmem
        exact hlive r hmem.1
    | some t =>
      cases oi with
      | none =>
        rw [mem_get_orders_table hI] at hmem
        exact hlive r hmem.1
      | some i =>
        rw [mem_get_orders_table_item hI] at hmem
        exact hlive r hmem.1

theorem cooking_time_range_witness :
    5 ≤ (⟨"a", "i", "t", 6⟩ : OrderResult).cooking_time
    ∧ (⟨"a", "i", "t", 6⟩ : OrderResult).cooking_time ≤ 15 :=
  (cooking_time_range []).2.1 "a" ⟨"i", "t"⟩ 12 ⟨"a", "i", "t", 6⟩ rfl

/-- C10: delete never removes a `by_table` entry: a successful delete
leaves every `by_table` key present, and after deleting the last
remaining order at a table that table's entry is retained as an empty
collection, so a subsequent `list(table_id)` on it returns the empty
sequence. -/
theorem delete_retains_empty_table_entry (ops : List Op) (id : String)
    (r : OrderResult) (hg : getVal (run ops).orders id = some r)
    (honly : ∀ k r2, getVal (run ops).orders k = some r2 →
      r2.table_id = r.table_id → k = id) :
    (∀ t, (getVal (delete_order (run ops) id).2.tablesIdx t).isSome =
        (getVal (run ops).tablesIdx t).isSome)
    ∧ getVal (delete_order (run ops) id).2.tablesIdx r.table_id = some []
    ∧ get_orders (delete_order (run ops) id).2 (some r.table_id) none
        = [] := by
  have hI := StoreInv_run ops
  have hc := hI.complete id r hg
  rw [delete_order_of_found hg]
  obtain ⟨l, hl⟩ : ∃ l, getVal (run ops).tablesIdx r.table_id = some l := by
    cases hgt : getVal (run ops).tablesIdx r.table_id with
    | none =>
      rw [hgt] at hc
      simp at hc
    | some l => exact ⟨l, rfl⟩
  have hall : ∀ x ∈ l, x = id := by
    intro x hx
    obtain ⟨r2, hr2, hrt2⟩ := hI.sound r.table_id x (by rw [hl]; simpa using hx)
    exact honly x r2 hr2 hrt2
  have hfempty : l.filter (fun x => x ≠ id) = [] := by
    rw [List.filter_eq_nil_iff]
    intro x hx
    simp [hall x hx]
  have hentry : getVal (retainAtKey (run ops).tablesIdx r.table_id id)
      r.table_id = some [] := by
    rw [getVal_retainAtKey_self, hl, Option.map_some']
    exact congrArg some hfempty
  refine ⟨?_, hentry, ?_⟩
  · intro t
    by_cases ht : t = r.table_id
    · subst ht
      rw [getVal_retainAtKey_self, hl]
      simp
    · rw [getVal_retainAtKey_ne _ _ _ _ ht]
  · simp [get_orders, hentry]

theorem delete_retains_empty_table_entry_witness :
    getVal (delete_order (run [Op.put "a" ⟨"i", "t"⟩ 0])
        "a").2.tablesIdx "t" = some []
    ∧ get_orders (delete_order (run [Op.put "a" ⟨"i", "t"⟩ 0]) "a").2
        (some "t") none = [] := by
  have honly : ∀ k r2,
      getVal (run [Op.put "a" ⟨"i", "t"⟩ 0]).orders k = some r2 →
      r2.table_id = (⟨"a", "i", "t", 5⟩ : OrderResult).table_id →
      k = "a" := by
    have horders : (run [Op.put "a" ⟨"i", "t"⟩ 0]).orders =
        [("a", ⟨"a", "i", "t", 5⟩)] := by decide
    intro k r2 hk _
    rw [horders] at hk
    by_cases hka : "a" = k
    · exact hka.symm
    · simp [getVal, hka] at hk
  have h := delete_retains_empty_table_entry [Op.put "a" ⟨"i", "t"⟩ 0] "a"
    ⟨"a", "i", "t", 5⟩ (by decide) honly
  exact ⟨h.2.1, h.2.2⟩
